import Mathlib

/-!
Verification of the routing core of the Istanbul Metro service
(`backend/metro_service.py`).

The Python code is shallowly embedded as follows.

* Python `float` values are modelled as exact rationals (`ℚ`); float
  arithmetic is modelled as exact rational arithmetic.
* The coordinate strings stored in station records are modelled by the
  outcome of the `float(...)` conversion the code applies to them: either
  the parsed numeric value or a marker for a string on which `float`
  raises `ValueError` (`RawCoord.malformed`).
* The trigonometric primitives of Python's `math` module (`sin`, `cos`,
  `asin`, `sqrt`, and the constant `pi`) are external library functions;
  they are kept abstract as a `TrigModel` parameter, and properties that
  depend on them (oddness of `sin`, `sqrt 0 = 0`, ...) appear as explicit
  hypotheses.
* `networkx.Graph` is modelled by `MGraph`: an insertion-ordered
  association list of nodes (Python dicts preserve insertion order and
  keep the original position on overwrite) plus an undirected edge list
  keyed by unordered id pairs, with attribute overwrite on re-insertion.
* `nx.shortest_path(G, s, t, weight='weight')` is an external library
  call. Modelled from the spec: a weighted shortest-path search
  ("Dijkstra or equivalent correct-for-nonnegative-weights algorithm")
  returning a path of minimum total weight; here it is embedded as an
  exhaustive minimum-weight search over duplicate-free paths
  (`shortestPathNx`), raising (returning `none`) when an endpoint is
  missing or no path exists, exactly as the library does.
* Python `round(x, n)` is modelled by exact round-half-to-even on `ℚ`
  (`pyRound`).
* Python exceptions escaping an operation are modelled by `Option`:
  `none` is the observable outcome that `find_shortest_path` and
  `get_station_by_id` map every exception to, and graph construction
  yielding `none` models the uncaught `ValueError` of a failed `float`
  conversion.
-/

namespace Metro

/-- Coordinate value as stored in a station record.  The source keeps
coordinates as strings and converts them with Python `float`; a string is
modelled by the outcome of that conversion: the parsed numeric value, or a
marker for a string on which `float` raises `ValueError`. -/
inductive RawCoord where
  | num (q : ℚ)
  | malformed
  deriving DecidableEq

/-- Python `float(s)` on a stored coordinate string: `some` parsed value,
or `none` when the conversion raises. -/
def pyFloat : RawCoord → Option ℚ
  | .num q => some q
  | .malformed => none

/-- One station record of the catalog (`self.stations[line]` entries):
display name, coordinate strings, integer id and 1-based order.  The
`line` key of the Python dict always equals the name of the line group the
record sits in, so it is carried by the catalog grouping instead. -/
structure RawStation where
  name : String
  latitude : RawCoord
  longitude : RawCoord
  id : ℤ
  order : ℤ
  deriving DecidableEq

/-- The finalized station catalog `self.stations`: line groups in the
fixed (insertion-ordered) iteration order of the Python dict, each with
its ordered station list. -/
abbrev Catalog := List (String × List RawStation)

/-- Abstract model of the trigonometric primitives from Python's `math`
module used by `_haversine_distance` and `math.radians`. -/
structure TrigModel where
  sin : ℚ → ℚ
  cos : ℚ → ℚ
  asin : ℚ → ℚ
  sqrt : ℚ → ℚ
  pi : ℚ

/-- `math.radians(x) = x * pi / 180`. -/
def radiansM (T : TrigModel) (x : ℚ) : ℚ := x * T.pi / 180

/-- `MetroService._haversine_distance`: great-circle distance in
kilometers with Earth radius `R = 6371`, computed over the abstract
trigonometric model; the source's local variables (`dlat`, `dlon`, `a`,
`c`) are inlined. -/
def haversine_distance (T : TrigModel) (lat1 lon1 lat2 lon2 : ℚ) : ℚ :=
  6371 * (2 * T.asin (T.sqrt (
    T.sin ((radiansM T lat2 - radiansM T lat1) / 2) ^ 2 +
    T.cos (radiansM T lat1) * T.cos (radiansM T lat2) *
    T.sin ((radiansM T lon2 - radiansM T lon1) / 2) ^ 2)))

/-- Node attributes stored by `G.add_node`: `pos=(lng, lat)`, display
name, owning line tag and order. -/
structure NodeData where
  pos : ℚ × ℚ
  name : String
  line : String
  order : ℤ
  deriving DecidableEq

/-- Edge attributes stored by `G.add_edge`: weight (kilometers) and the
owning line tag. -/
structure EdgeData where
  weight : ℚ
  line : String
  deriving DecidableEq

/-- The `networkx.Graph` instance: insertion-ordered node association
list (id to attributes) and an undirected edge list keyed by unordered id
pairs. -/
structure MGraph where
  nodes : List (ℤ × NodeData)
  edges : List ((ℤ × ℤ) × EdgeData)
  deriving DecidableEq

/-- Insert-or-overwrite of a key in an insertion-ordered association
list: Python dict semantics (overwrite keeps the original position). -/
def updateAssoc (k : ℤ) (v : NodeData) : List (ℤ × NodeData) → List (ℤ × NodeData)
  | [] => [(k, v)]
  | (k', v') :: rest => if k' = k then (k, v) :: rest else (k', v') :: updateAssoc k v rest

/-- Does a stored edge key match the unordered pair `{u, v}`? -/
def edgeKeyMatches (u v : ℤ) (key : ℤ × ℤ) : Bool :=
  (key.1 = u && key.2 = v) || (key.1 = v && key.2 = u)

/-- `G.add_edge(u, v, ...)`: overwrite the attributes of an existing
undirected edge `{u, v}` or append a new one. -/
def updateEdge (u v : ℤ) (d : EdgeData) :
    List ((ℤ × ℤ) × EdgeData) → List ((ℤ × ℤ) × EdgeData)
  | [] => [((u, v), d)]
  | (key, d') :: rest =>
    if edgeKeyMatches u v key then (key, d) :: rest
    else (key, d') :: updateEdge u v d rest

/-- Node-insertion step for one record of one line (first loop of
`build_graph`): convert the coordinate strings with `float` and store the
node keyed by id. -/
def insertRecord (acc : List (ℤ × NodeData)) (r : String × RawStation) :
    Option (List (ℤ × NodeData)) := do
  let lat ← pyFloat r.2.latitude
  let lng ← pyFloat r.2.longitude
  some (updateAssoc r.2.id ⟨(lng, lat), r.2.name, r.1, r.2.order⟩ acc)

/-- Process a flat list of (line, record) pairs through `insertRecord`. -/
def nodesOfRecords : List (String × RawStation) → List (ℤ × NodeData) →
    Option (List (ℤ × NodeData))
  | [], acc => some acc
  | r :: rs, acc => (insertRecord acc r).bind (nodesOfRecords rs)

/-- The catalog flattened to (line, record) pairs in iteration order. -/
def catRecords (cat : Catalog) : List (String × RawStation) :=
  cat.flatMap fun p => p.2.map fun s => (p.1, s)

/-- Edge-insertion pass for one line (second loop of `build_graph`): for
every consecutive pair of records, convert coordinates, compute the
haversine weight and add/overwrite the undirected edge. -/
def addEdgesOf (T : TrigModel) (line : String) :
    List RawStation → List ((ℤ × ℤ) × EdgeData) → Option (List ((ℤ × ℤ) × EdgeData))
  | s1 :: s2 :: rest, acc => do
    let la1 ← pyFloat s1.latitude
    let lo1 ← pyFloat s1.longitude
    let la2 ← pyFloat s2.latitude
    let lo2 ← pyFloat s2.longitude
    let w := haversine_distance T la1 lo1 la2 lo2
    addEdgesOf T line (s2 :: rest) (updateEdge s1.id s2.id ⟨w, line⟩ acc)
  | _, acc => some acc

/-- Edge passes of all lines in catalog order. -/
def edgesOfCat (T : TrigModel) : Catalog → List ((ℤ × ℤ) × EdgeData) →
    Option (List ((ℤ × ℤ) × EdgeData))
  | [], acc => some acc
  | (ln, ss) :: rest, acc => (addEdgesOf T ln ss acc).bind (edgesOfCat T rest)

/-- `MetroService.build_graph`: first add every node (line by line, record
by record, later records overwriting earlier ones that share an id), then
add the consecutive-pair edges of every line.  A failed `float`
conversion anywhere aborts construction (`none`). -/
def build_graph (T : TrigModel) (cat : Catalog) : Option MGraph := do
  let ns ← nodesOfRecords (catRecords cat) []
  let es ← edgesOfCat T cat []
  some ⟨ns, es⟩

/-- Ids of the nodes of the graph, in insertion order. -/
def nodeIds (G : MGraph) : List ℤ := G.nodes.map Prod.fst

/-- Node-attribute lookup `G.nodes[x]` as an optional value (a missing
key raises `KeyError` in the source). -/
def lookupNode (G : MGraph) (x : ℤ) : Option NodeData :=
  (G.nodes.find? fun p => p.1 = x).map Prod.snd

/-- `G.get_edge_data(u, v)`: attribute lookup of the undirected edge
`{u, v}`. -/
def findEdge (G : MGraph) (u v : ℤ) : Option EdgeData :=
  (G.edges.find? fun e => edgeKeyMatches u v e.1).map Prod.snd

/-- Stored weight of the undirected edge `{u, v}` (0 when absent; only
used on pairs that are edges). -/
def wtOf (G : MGraph) (u v : ℤ) : ℚ :=
  ((findEdge G u v).map EdgeData.weight).getD 0

/-- Neighbors of `u`: the other endpoint of every incident edge. -/
def adjOf (G : MGraph) (u : ℤ) : List ℤ :=
  G.edges.filterMap fun e =>
    if e.1.1 = u then some e.1.2 else if e.1.2 = u then some e.1.1 else none

/-- Consecutive pairs of a list (the legs of a path). -/
def pairs : List ℤ → List (ℤ × ℤ)
  | a :: b :: rest => (a, b) :: pairs (b :: rest)
  | _ => []

/-- Total weight of a path: sum of the stored edge weights of its
consecutive pairs. -/
def pathWeight (G : MGraph) (l : List ℤ) : ℚ :=
  ((pairs l).map fun p => wtOf G p.1 p.2).sum

/-- Total unrounded travel time of a path: per leg, weight at 40 km/h in
minutes plus the fixed 1-minute stop allowance. -/
def pathTime (G : MGraph) (l : List ℤ) : ℚ :=
  ((pairs l).map fun p => (wtOf G p.1 p.2 / 40) * 60 + 1).sum

/-- `p` is a path of the graph from `s` to `t`: nonempty (it starts with
`s`), ends with `t`, and every consecutive pair is an edge. -/
def IsPath (G : MGraph) (s t : ℤ) (p : List ℤ) : Prop :=
  p.head? = some s ∧ p.getLast? = some t ∧ ∀ q ∈ pairs p, (findEdge G q.1 q.2).isSome

instance (G : MGraph) (s t : ℤ) (p : List ℤ) : Decidable (IsPath G s t p) := by
  unfold IsPath; infer_instance

/-- All vertices mentioned by some edge of the graph. -/
def allVerts (G : MGraph) : List ℤ :=
  G.edges.flatMap fun e => [e.1.1, e.1.2]

/-- Search depth that strictly bounds the length of any duplicate-free
path of the graph. -/
def fuelOf (G : MGraph) : ℕ := (nodeIds G).length + (allVerts G).length + 1

/-- All duplicate-free paths of `G` from `u` to `t` avoiding `visited`,
explored to depth `fuel`. -/
def simplePathsAux (G : MGraph) (t : ℤ) : ℕ → ℤ → List ℤ → List (List ℤ)
  | 0, _, _ => []
  | fuel + 1, u, visited =>
    if u = t then [[u]]
    else ((adjOf G u).filter fun v => v ∉ u :: visited).flatMap fun v =>
      (simplePathsAux G t fuel v (u :: visited)).map (u :: ·)

/-- First candidate of minimum value under `w`. -/
def pickMin (w : List ℤ → ℚ) : List (List ℤ) → Option (List ℤ)
  | [] => none
  | c :: cs => some (cs.foldl (fun best q => if w q < w best then q else best) c)

/-- Modelled from the spec: `nx.shortest_path(G, source, target,
weight='weight')` is an external `networkx` call, specified as "a weighted
shortest-path search (Dijkstra or equivalent correct-for-nonnegative-
weights algorithm) minimizing the sum of edge weights".  It raises
`NodeNotFound` when an endpoint is not a node (here `none`), raises
`NetworkXNoPath` when no path exists (here `none`), and otherwise returns
a minimum-weight path; embedded as an exhaustive minimum-weight search
over duplicate-free paths. -/
def shortestPathNx (G : MGraph) (s t : ℤ) : Option (List ℤ) :=
  if s ∈ nodeIds G ∧ t ∈ nodeIds G then
    pickMin (pathWeight G) (simplePathsAux G t (fuelOf G) s [])
  else none

/-- Round-half-to-even to an integer, on exact rationals. -/
def rhe (q : ℚ) : ℤ :=
  let f := Int.fdiv q.num q.den
  let r := q - (f : ℚ)
  if r < 1 / 2 then f
  else if r > 1 / 2 then f + 1
  else if f % 2 = 0 then f else f + 1

/-- Python `round(x, n)`: round-half-to-even at `n` decimal digits,
modelled on exact rationals. -/
def pyRound (q : ℚ) (n : ℕ) : ℚ := (rhe (q * 10 ^ n) : ℚ) / 10 ^ n

/-- One entry of `route_details`. -/
structure Leg where
  from_id : ℤ
  from_name : String
  to_id : ℤ
  to_name : String
  line : String
  distance : ℚ
  time : ℚ
  deriving DecidableEq

/-- One entry of the `stations` list of a route result, also the result
shape of `get_station_by_id` and `search_stations`. -/
structure StationOut where
  id : ℤ
  name : String
  latitude : ℚ
  longitude : ℚ
  line : String
  deriving DecidableEq

/-- The successful result dict of `find_shortest_path`. -/
structure RouteResult where
  path : List ℤ
  stations : List StationOut
  route_details : List Leg
  total_distance : ℚ
  total_time : ℚ
  num_stations : ℕ
  deriving DecidableEq

/-- The leg loop of `find_shortest_path`: for every consecutive pair of
the path, look up the edge and both nodes, build the `route_details`
entry (rounded distance and time) and accumulate the unrounded distance
and time totals.  A missing edge or node raises (`none`). -/
def legsOf (G : MGraph) : List ℤ → Option (List Leg × ℚ × ℚ)
  | u :: v :: rest => do
    let e ← findEdge G u v
    let cu ← lookupNode G u
    let cv ← lookupNode G v
    let travel := (e.weight / 40) * 60 + 1
    let (ls, td, tt) ← legsOf G (v :: rest)
    some (⟨u, cu.name, v, cv.name, e.line, pyRound e.weight 2, pyRound travel 1⟩ :: ls,
      e.weight + td, travel + tt)
  | _ => some ([], 0, 0)

/-- The station loop of `find_shortest_path`: node attributes of every
path element, in path order. -/
def stationsOf (G : MGraph) : List ℤ → Option (List StationOut)
  | [] => some []
  | x :: rest => do
    let d ← lookupNode G x
    let tail ← stationsOf G rest
    some (⟨x, d.name, d.pos.2, d.pos.1, d.line⟩ :: tail)

/-- Result assembly of `find_shortest_path` for a found path: per-leg
details, the station list and the once-rounded totals; a missing edge or
node raises (`none`). -/
def routeOf (G : MGraph) (path : List ℤ) : Option RouteResult :=
  match legsOf G path, stationsOf G path with
  | some (route_details, total_distance, total_time), some stations_on_route =>
    some { path := path
           stations := stations_on_route
           route_details := route_details
           total_distance := pyRound total_distance 2
           total_time := pyRound total_time 1
           num_stations := path.length }
  | _, _ => none

/-- `MetroService.find_shortest_path`: run the shortest-path search and
assemble the result; any raised error (missing endpoint, no path, missing
edge or node data) yields `None`. -/
def find_shortest_path (G : MGraph) (source_id target_id : ℤ) : Option RouteResult :=
  match shortestPathNx G source_id target_id with
  | none => none
  | some path => routeOf G path

/-- `MetroService.get_station_by_id`: node lookup, `None` on `KeyError`. -/
def get_station_by_id (G : MGraph) (station_id : ℤ) : Option StationOut :=
  (lookupNode G station_id).map fun d => ⟨station_id, d.name, d.pos.2, d.pos.1, d.line⟩

/-- Python `str.upper()` on one character, for the ASCII range the
station data uses. -/
def pyUpperChar (c : Char) : Char :=
  if 97 ≤ c.toNat ∧ c.toNat ≤ 122 then Char.ofNat (c.toNat - 32) else c

/-- Python `str.lower()` on one character, for the ASCII range. -/
def pyLowerChar (c : Char) : Char :=
  if 65 ≤ c.toNat ∧ c.toNat ≤ 90 then Char.ofNat (c.toNat + 32) else c

/-- Python `str.upper()` (ASCII model). -/
def pyUpper (s : String) : String := ⟨s.data.map pyUpperChar⟩

/-- Python `str.lower()` (ASCII model). -/
def pyLower (s : String) : String := ⟨s.data.map pyLowerChar⟩

/-- Does `hay` start with `needle`? -/
def startsList : List Char → List Char → Bool
  | [], _ => true
  | _ :: _, [] => false
  | a :: as, b :: bs => a = b && startsList as bs

/-- Does `hay` contain `needle` as a contiguous substring? -/
def hasSubList (needle : List Char) : List Char → Bool
  | [] => needle.isEmpty
  | b :: t => startsList needle (b :: t) || hasSubList needle t

/-- Python `needle in hay` on strings. -/
def pyIn (needle hay : String) : Bool := hasSubList needle.data hay.data

/-- `MetroService.search_stations`: uppercase the query, then collect (in
node insertion order) every station whose uppercased display name
contains it. -/
def search_stations (G : MGraph) (query : String) : List StationOut :=
  let q := pyUpper query
  G.nodes.filterMap fun p =>
    if pyIn q (pyUpper p.2.name) then
      some ⟨p.1, p.2.name, p.2.pos.2, p.2.pos.1, p.2.line⟩
    else none

/-- Every stored edge weight of the graph is nonnegative (true of the
haversine weights the service stores; the spec requires the search to be
correct for nonnegative weights). -/
def EdgeWeightsNonneg (G : MGraph) : Prop := ∀ e ∈ G.edges, 0 ≤ e.2.weight

instance (G : MGraph) : Decidable (EdgeWeightsNonneg G) := by
  unfold EdgeWeightsNonneg; infer_instance

/-- Every edge endpoint is a node of the graph (a `networkx` invariant:
`add_edge` inserts missing endpoints, and `build_graph` adds all ids as
nodes before adding edges). -/
def EdgesClosed (G : MGraph) : Prop :=
  ∀ e ∈ G.edges, e.1.1 ∈ nodeIds G ∧ e.1.2 ∈ nodeIds G

instance (G : MGraph) : Decidable (EdgesClosed G) := by
  unfold EdgesClosed; infer_instance

end Metro


namespace Metro

/-! ### Concrete fixtures used by witnesses and counterexamples -/

/-- Trigonometric model instance used to evaluate the embedding on
concrete catalogs (`sin`, `asin`, `sqrt` all the identity, `cos`
constantly 1, `pi = 3`); it satisfies the hypotheses of the abstract
theorems and yields nonnegative edge weights. -/
def witT : TrigModel := ⟨id, fun _ => 1, id, id, 3⟩

/-- Trigonometric model whose `asin` is the constant `617 / 6371000`, so
every edge of a graph built over it has weight exactly `1.234` km. -/
def cexT : TrigModel := ⟨id, id, fun _ => 617 / 6371000, id, 0⟩

/-- A catalog with a single line of two stations. -/
def witCat : Catalog :=
  [("A", [⟨"S1", .num 0, .num 0, 1, 1⟩, ⟨"S2", .num 0, .num 60, 2, 2⟩])]

/-- A catalog of two lines sharing the interchange id 2, whose two
records carry different names, coordinates and orders. -/
def witCat5 : Catalog :=
  [("A", [⟨"S1", .num 0, .num 0, 1, 1⟩, ⟨"S2A", .num 0, .num 1, 2, 2⟩]),
   ("B", [⟨"S2B", .num 1, .num 1, 2, 1⟩, ⟨"S3", .num 1, .num 2, 3, 2⟩])]

/-- A catalog whose single station has the numeric but out-of-range
latitude 200. -/
def cexCatRange : Catalog := [("A", [⟨"S1", .num 200, .num 0, 1, 1⟩])]

/-- A catalog whose single station has a non-numeric latitude string. -/
def witCatMal : Catalog := [("A", [⟨"S1", .malformed, .num 0, 1, 1⟩])]

/-- The graph built from `witCat`. -/
def witG : MGraph := (build_graph witT witCat).getD ⟨[], []⟩

/-- The graph built from `witCat5`. -/
def witG5 : MGraph := (build_graph witT witCat5).getD ⟨[], []⟩

/-- The graph built from `witCat` over `cexT` (every edge weight
`1.234`). -/
def cexG : MGraph := (build_graph cexT witCat).getD ⟨[], []⟩

/-- The route result of `find_shortest_path witG 1 2`. -/
def witR : RouteResult := (find_shortest_path witG 1 2).getD ⟨[], [], [], 0, 0, 0⟩

/-- The route result of `find_shortest_path cexG 1 2`. -/
def cexR : RouteResult := (find_shortest_path cexG 1 2).getD ⟨[], [], [], 0, 0, 0⟩

/-- The single leg of `cexR`. -/
def cexLeg : Leg := cexR.route_details.headD ⟨0, "", 0, "", "", 0, 0⟩

/-! ### Lemmas about `pairs` and path weights -/

theorem pairs_nil : pairs [] = [] := rfl

theorem pairs_single (a : ℤ) : pairs [a] = [] := rfl

theorem pairs_cons_cons (a b : ℤ) (l : List ℤ) :
    pairs (a :: b :: l) = (a, b) :: pairs (b :: l) := rfl

theorem pairs_append_cons :
    ∀ (xs : List ℤ) (y : ℤ) (ys : List ℤ),
      pairs (xs ++ y :: ys) = pairs (xs ++ [y]) ++ pairs (y :: ys)
  | [], _, _ => rfl
  | [a], y, ys => by simp [pairs_cons_cons, pairs_single]
  | a :: b :: xs, y, ys => by
    have ih := pairs_append_cons (b :: xs) y ys
    simp only [List.cons_append, pairs_cons_cons] at *
    rw [ih]

theorem pairs_subset_cons (u : ℤ) (l : List ℤ) : pairs l ⊆ pairs (u :: l) := by
  cases l with
  | nil => simp [pairs_nil]
  | cons b t =>
    rw [pairs_cons_cons]
    intro x hx
    exact List.mem_cons_of_mem _ hx

theorem pairs_cons_of_head? {l : List ℤ} {h : ℤ} (u : ℤ) (hh : l.head? = some h) :
    pairs (u :: l) = (u, h) :: pairs l := by
  cases l with
  | nil => simp at hh
  | cons b t => rw [List.head?_cons, Option.some_inj] at hh; rw [hh, pairs_cons_cons]

theorem pathWeight_nil (G : MGraph) : pathWeight G [] = 0 := rfl

theorem pathWeight_single (G : MGraph) (a : ℤ) : pathWeight G [a] = 0 := rfl

theorem pathWeight_cons_of_head? {l : List ℤ} {h : ℤ} (G : MGraph) (u : ℤ)
    (hh : l.head? = some h) :
    pathWeight G (u :: l) = wtOf G u h + pathWeight G l := by
  unfold pathWeight
  rw [pairs_cons_of_head? u hh, List.map_cons, List.sum_cons]

theorem wtOf_nonneg {G : MGraph} (hw : EdgeWeightsNonneg G) (u v : ℤ) :
    0 ≤ wtOf G u v := by
  unfold wtOf findEdge
  cases hfind : G.edges.find? fun e => edgeKeyMatches u v e.1 with
  | none => simp
  | some e =>
    have he := List.mem_of_find?_eq_some hfind
    simpa using hw e he

theorem pathWeight_nonneg {G : MGraph} (hw : EdgeWeightsNonneg G) (l : List ℤ) :
    0 ≤ pathWeight G l := by
  unfold pathWeight
  refine List.sum_nonneg ?_
  intro x hx
  rcases List.mem_map.1 hx with ⟨p, _, rfl⟩
  exact wtOf_nonneg hw p.1 p.2

theorem pathWeight_append_cons (G : MGraph) (xs : List ℤ) (y : ℤ) (ys : List ℤ) :
    pathWeight G (xs ++ y :: ys) = pathWeight G (xs ++ [y]) + pathWeight G (y :: ys) := by
  unfold pathWeight
  rw [pairs_append_cons, List.map_append, List.sum_append]

/-! ### Lemmas about `pickMin` -/

theorem pickMin_foldl_spec (w : List ℤ → ℚ) :
    ∀ (cs : List (List ℤ)) (b : List ℤ),
      (cs.foldl (fun best q => if w q < w best then q else best) b) ∈ b :: cs ∧
      ∀ q ∈ b :: cs, w (cs.foldl (fun best q => if w q < w best then q else best) b) ≤ w q
  | [], b => by simp
  | c :: cs, b => by
    simp only [List.foldl_cons]
    by_cases hcb : w c < w b
    · rw [if_pos hcb]
      have ih := pickMin_foldl_spec w cs c
      constructor
      · rcases List.mem_cons.1 ih.1 with h | h
        · rw [h]
          exact List.mem_cons_of_mem _ (List.mem_cons_self _ _)
        · exact List.mem_cons_of_mem _ (List.mem_cons_of_mem _ h)
      · intro q hq
        have hminc := ih.2 c (List.mem_cons_self _ _)
        rcases List.mem_cons.1 hq with h | hq'
        · exact h ▸ le_trans hminc (le_of_lt hcb)
        rcases List.mem_cons.1 hq' with h | h
        · exact h ▸ hminc
        · exact ih.2 q (List.mem_cons_of_mem _ h)
    · rw [if_neg hcb]
      have ih := pickMin_foldl_spec w cs b
      constructor
      · rcases List.mem_cons.1 ih.1 with h | h
        · rw [h]
          exact List.mem_cons_self _ _
        · exact List.mem_cons_of_mem _ (List.mem_cons_of_mem _ h)
      · intro q hq
        have hminb := ih.2 b (List.mem_cons_self _ _)
        rcases List.mem_cons.1 hq with h | hq'
        · exact h ▸ hminb
        rcases List.mem_cons.1 hq' with h | h
        · exact h ▸ le_trans hminb (le_of_not_lt hcb)
        · exact ih.2 q (List.mem_cons_of_mem _ h)

theorem pickMin_mem {w : List ℤ → ℚ} {l : List (List ℤ)} {p : List ℤ}
    (h : pickMin w l = some p) : p ∈ l := by
  cases l with
  | nil => simp [pickMin] at h
  | cons c cs =>
    unfold pickMin at h
    rw [Option.some_inj] at h
    rw [← h]
    exact (pickMin_foldl_spec w cs c).1

theorem pickMin_le {w : List ℤ → ℚ} {l : List (List ℤ)} {p : List ℤ}
    (h : pickMin w l = some p) : ∀ q ∈ l, w p ≤ w q := by
  cases l with
  | nil => simp [pickMin] at h
  | cons c cs =>
    unfold pickMin at h
    rw [Option.some_inj] at h
    rw [← h]
    exact (pickMin_foldl_spec w cs c).2

theorem pickMin_isSome {w : List ℤ → ℚ} {l : List (List ℤ)} (h : l ≠ []) :
    (pickMin w l).isSome := by
  cases l with
  | nil => exact absurd rfl h
  | cons c cs => simp [pickMin]

/-! ### Adjacency and the simple-path enumeration -/

theorem getLast?_cons_ne {a : ℤ} {l : List ℤ} (h : l ≠ []) :
    (a :: l).getLast? = l.getLast? := by
  cases l with
  | nil => exact absurd rfl h
  | cons b t => exact List.getLast?_cons_cons

theorem findEdge_isSome_iff {G : MGraph} {u v : ℤ} :
    (findEdge G u v).isSome ↔ ∃ e ∈ G.edges, edgeKeyMatches u v e.1 = true := by
  unfold findEdge
  cases hf : G.edges.find? fun e => edgeKeyMatches u v e.1 with
  | none =>
    simp only [Option.map_none', Option.isSome_none, Bool.false_eq_true, false_iff]
    rintro ⟨e, he, hm⟩
    have := List.find?_eq_none.1 hf e he
    exact this hm
  | some e =>
    simp only [Option.map_some', Option.isSome_some, true_iff]
    have hp := @List.find?_some _ (fun e => edgeKeyMatches u v e.1) e G.edges hf
    exact ⟨e, List.mem_of_find?_eq_some hf, hp⟩

theorem mem_adjOf_iff {G : MGraph} {u v : ℤ} :
    v ∈ adjOf G u ↔ (findEdge G u v).isSome := by
  rw [findEdge_isSome_iff]
  unfold adjOf
  rw [List.mem_filterMap]
  constructor
  · rintro ⟨e, he, hemit⟩
    refine ⟨e, he, ?_⟩
    unfold edgeKeyMatches
    by_cases h1 : e.1.1 = u
    · rw [if_pos h1] at hemit
      rw [Option.some_inj] at hemit
      simp [h1, hemit]
    · rw [if_neg h1] at hemit
      by_cases h2 : e.1.2 = u
      · rw [if_pos h2] at hemit
        rw [Option.some_inj] at hemit
        simp [h2, hemit]
      · rw [if_neg h2] at hemit
        exact absurd hemit (by simp)
  · rintro ⟨e, he, hm⟩
    refine ⟨e, he, ?_⟩
    unfold edgeKeyMatches at hm
    simp only [Bool.or_eq_true, Bool.and_eq_true, decide_eq_true_eq] at hm
    rcases hm with ⟨h1, h2⟩ | ⟨h1, h2⟩
    · rw [if_pos h1, h2]
    · by_cases hu : e.1.1 = u
      · rw [if_pos hu, Option.some_inj, h2, ← hu, h1]
      · rw [if_neg hu, if_pos h2, h1]

theorem simplePathsAux_sound {G : MGraph} {t : ℤ} :
    ∀ {fuel : ℕ} {u : ℤ} {visited p : List ℤ},
      p ∈ simplePathsAux G t fuel u visited →
      p.head? = some u ∧ p.getLast? = some t ∧
        ∀ q ∈ pairs p, (findEdge G q.1 q.2).isSome := by
  intro fuel
  induction fuel with
  | zero =>
    intro u visited p hp
    simp [simplePathsAux] at hp
  | succ n ih =>
    intro u visited p hp
    rw [simplePathsAux] at hp
    by_cases hut : u = t
    · rw [if_pos hut] at hp
      simp only [List.mem_singleton] at hp
      subst hp
      subst hut
      exact ⟨rfl, rfl, fun q hq => by simp [pairs_single] at hq⟩
    · rw [if_neg hut] at hp
      rw [List.mem_flatMap] at hp
      rcases hp with ⟨v, hv, hmem⟩
      rw [List.mem_map] at hmem
      rcases hmem with ⟨p', hp', rfl⟩
      have hs := ih hp'
      have hvadj : v ∈ adjOf G u := (List.mem_filter.1 hv).1
      have hne : p' ≠ [] := by
        intro h
        rw [h] at hs
        simp at hs
      refine ⟨rfl, ?_, ?_⟩
      · rw [getLast?_cons_ne hne]
        exact hs.2.1
      · intro q hq
        rw [pairs_cons_of_head? u hs.1] at hq
        rcases List.mem_cons.1 hq with h | h
        · subst h
          exact mem_adjOf_iff.1 hvadj
        · exact hs.2.2 q h

theorem simplePathsAux_complete {G : MGraph} {t : ℤ} :
    ∀ {fuel : ℕ} {u : ℤ} {visited p : List ℤ},
      p.head? = some u → p.getLast? = some t →
      (∀ q ∈ pairs p, (findEdge G q.1 q.2).isSome) →
      p.Nodup → (∀ x ∈ p, x ∉ visited) → p.length ≤ fuel →
      p ∈ simplePathsAux G t fuel u visited := by
  intro fuel
  induction fuel with
  | zero =>
    intro u visited p hh _ _ _ _ hlen
    cases p with
    | nil => simp at hh
    | cons a rest => simp at hlen
  | succ n ih =>
    intro u visited p hh hl hadj hnd hvis hlen
    cases p with
    | nil => simp at hh
    | cons a rest =>
      rw [List.head?_cons, Option.some_inj] at hh
      rw [← hh]
      rw [simplePathsAux]
      by_cases hat : a = t
      · rw [if_pos hat]
        cases rest with
        | nil =>
          subst hat
          simp
        | cons b rs =>
          exfalso
          rw [getLast?_cons_ne (by simp)] at hl
          have htmem : t ∈ b :: rs := List.mem_of_mem_getLast? hl
          rw [List.nodup_cons] at hnd
          exact hnd.1 (hat ▸ htmem)
      · rw [if_neg hat]
        cases rest with
        | nil =>
          exfalso
          simp only [List.getLast?_singleton, Option.some_inj] at hl
          exact hat hl
        | cons v rs =>
          rw [List.mem_flatMap]
          have hnd' := List.nodup_cons.1 hnd
          refine ⟨v, ?_, ?_⟩
          · rw [List.mem_filter]
            constructor
            · have : (a, v) ∈ pairs (a :: v :: rs) := by
                rw [pairs_cons_cons]
                exact List.mem_cons_self _ _
              exact mem_adjOf_iff.2 (hadj _ this)
            · have hva : v ≠ a := by
                intro h
                exact hnd'.1 (h ▸ List.mem_cons_self _ _)
              have hvv : v ∉ visited := hvis v (List.mem_cons_of_mem _ (List.mem_cons_self _ _))
              simp [hva, hvv]
          · rw [List.mem_map]
            refine ⟨v :: rs, ?_, rfl⟩
            refine ih rfl ?_ ?_ hnd'.2 ?_ ?_
            · rw [getLast?_cons_ne (by simp)] at hl
              exact hl
            · intro q hq
              exact hadj q (pairs_subset_cons a _ hq)
            · intro x hx
              rw [List.mem_cons]
              rintro (h | h)
              · exact hnd'.1 (h ▸ hx)
              · exact hvis x (List.mem_cons_of_mem _ hx) h
            · simpa using Nat.le_of_succ_le_succ hlen

/-! ### Loop removal: every walk contains a duplicate-free path of no
larger weight -/

/-- Suffix of `l` after the first occurrence of `u`. -/
def afterFirst (u : ℤ) : List ℤ → List ℤ
  | [] => []
  | v :: vs => if v = u then vs else afterFirst u vs

theorem afterFirst_length_lt {u : ℤ} :
    ∀ {l : List ℤ}, u ∈ l → (afterFirst u l).length < l.length
  | [], h => by simp at h
  | v :: vs, h => by
    rw [afterFirst]
    by_cases hv : v = u
    · rw [if_pos hv]
      simp
    · rw [if_neg hv]
      have hu : u ∈ vs := by
        rcases List.mem_cons.1 h with h1 | h1
        · exact absurd h1.symm hv
        · exact h1
      have := afterFirst_length_lt hu
      simp only [List.length_cons]
      omega

theorem afterFirst_decomp {u : ℤ} :
    ∀ {l : List ℤ}, u ∈ l → ∃ pre, l = pre ++ u :: afterFirst u l
  | [], h => by simp at h
  | v :: vs, h => by
    rw [afterFirst]
    by_cases hv : v = u
    · rw [if_pos hv]
      refine ⟨[], ?_⟩
      rw [hv]
      simp
    · rw [if_neg hv]
      have hu : u ∈ vs := by
        rcases List.mem_cons.1 h with h1 | h1
        · exact absurd h1.symm hv
        · exact h1
      rcases afterFirst_decomp hu with ⟨pre, hpre⟩
      refine ⟨v :: pre, ?_⟩
      rw [List.cons_append, ← hpre]

theorem getLast?_cons_concat (a x : ℤ) (l : List ℤ) :
    (a :: (l ++ [x])).getLast? = some x := by
  rw [← List.cons_append, List.getLast?_concat]

theorem getLast?_append_of_ne_nil (l : List ℤ) {l' : List ℤ} (h : l' ≠ []) :
    (l ++ l').getLast? = l'.getLast? := by
  cases hx : l'.getLast? with
  | none => exact absurd (List.getLast?_eq_none_iff.1 hx) h
  | some x =>
    rw [List.getLast?_append, hx]
    rfl

/-- Cut every cycle out of a walk: whenever the head vertex occurs again
later, skip directly past its first later occurrence. -/
def removeLoops : List ℤ → List ℤ
  | [] => []
  | u :: rest =>
    if h : u ∈ rest then removeLoops (u :: afterFirst u rest)
    else u :: removeLoops rest
termination_by l => l.length
decreasing_by
  · simp only [List.length_cons]
    exact Nat.succ_lt_succ (afterFirst_length_lt h)
  · simp only [List.length_cons]
    omega

theorem removeLoops_head? (l : List ℤ) : (removeLoops l).head? = l.head? := by
  induction l using removeLoops.induct with
  | case1 => rw [removeLoops]
  | case2 u rest h ih =>
    rw [removeLoops, dif_pos h, ih]
    rfl
  | case3 u rest h ih =>
    rw [removeLoops, dif_neg h]
    rfl

theorem removeLoops_getLast? (l : List ℤ) : (removeLoops l).getLast? = l.getLast? := by
  induction l using removeLoops.induct with
  | case1 => rw [removeLoops]
  | case2 u rest h ih =>
    rw [removeLoops, dif_pos h, ih]
    rcases afterFirst_decomp h with ⟨pre, hpre⟩
    cases hsuf : afterFirst u rest with
    | nil =>
      rw [hsuf] at hpre
      rw [hpre, getLast?_cons_concat]
      simp
    | cons b t =>
      rw [hsuf] at hpre
      have hrhs : (u :: rest).getLast? = (b :: t).getLast? := by
        rw [getLast?_cons_ne (by rw [hpre]; simp), hpre,
          getLast?_append_of_ne_nil _ (by simp), List.getLast?_cons_cons]
      rw [hrhs, List.getLast?_cons_cons]
  | case3 u rest h ih =>
    rw [removeLoops, dif_neg h]
    cases hrest : rest with
    | nil =>
      rw [removeLoops]
    | cons b t =>
      have hne : removeLoops rest ≠ [] := by
        intro hnil
        have hh := removeLoops_head? rest
        rw [hnil, hrest] at hh
        simp at hh
      rw [← hrest]
      rw [getLast?_cons_ne hne, getLast?_cons_ne (by rw [hrest]; simp), ih]

theorem removeLoops_subset (l : List ℤ) : removeLoops l ⊆ l := by
  induction l using removeLoops.induct with
  | case1 =>
    rw [removeLoops]
    exact List.Subset.refl _
  | case2 u rest h ih =>
    rw [removeLoops, dif_pos h]
    refine ih.trans ?_
    rcases afterFirst_decomp h with ⟨pre, hpre⟩
    intro x hx
    rcases List.mem_cons.1 hx with h1 | h1
    · exact h1 ▸ List.mem_cons_self _ _
    · refine List.mem_cons_of_mem _ ?_
      rw [hpre]
      exact List.mem_append_right _ (List.mem_cons_of_mem _ h1)
  | case3 u rest h ih =>
    rw [removeLoops, dif_neg h]
    exact List.cons_subset_cons u ih

theorem removeLoops_nodup (l : List ℤ) : (removeLoops l).Nodup := by
  induction l using removeLoops.induct with
  | case1 => rw [removeLoops]; exact List.nodup_nil
  | case2 u rest h ih =>
    rw [removeLoops, dif_pos h]
    exact ih
  | case3 u rest h ih =>
    rw [removeLoops, dif_neg h, List.nodup_cons]
    exact ⟨fun hx => h (removeLoops_subset rest hx), ih⟩

theorem removeLoops_pairs_subset (l : List ℤ) : pairs (removeLoops l) ⊆ pairs l := by
  induction l using removeLoops.induct with
  | case1 =>
    rw [removeLoops]
    exact List.Subset.refl _
  | case2 u rest h ih =>
    rw [removeLoops, dif_pos h]
    refine ih.trans ?_
    rcases afterFirst_decomp h with ⟨pre, hpre⟩
    have hsplit : u :: rest = (u :: pre) ++ u :: afterFirst u rest := by
      conv_lhs => rw [hpre]
      simp
    rw [hsplit, pairs_append_cons]
    exact fun q hq => List.mem_append_right _ hq
  | case3 u rest h ih =>
    rw [removeLoops, dif_neg h]
    cases hrest : rest with
    | nil =>
      rw [removeLoops, pairs_single]
      simp
    | cons b t =>
      have hh : (removeLoops rest).head? = some b := by
        rw [removeLoops_head?, hrest]
        rfl
      rw [← hrest]
      rw [pairs_cons_of_head? u hh, pairs_cons_of_head? u (by rw [hrest]; rfl)]
      intro q hq
      rcases List.mem_cons.1 hq with h1 | h1
      · exact h1 ▸ List.mem_cons_self _ _
      · exact List.mem_cons_of_mem _ (ih h1)

theorem removeLoops_weight_le {G : MGraph} (hw : EdgeWeightsNonneg G) (l : List ℤ) :
    pathWeight G (removeLoops l) ≤ pathWeight G l := by
  induction l using removeLoops.induct with
  | case1 =>
    rw [removeLoops]
  | case2 u rest h ih =>
    rw [removeLoops, dif_pos h]
    refine ih.trans ?_
    rcases afterFirst_decomp h with ⟨pre, hpre⟩
    have hsplit : u :: rest = (u :: pre) ++ u :: afterFirst u rest := by
      conv_lhs => rw [hpre]
      simp
    rw [hsplit, pathWeight_append_cons]
    have := pathWeight_nonneg hw ((u :: pre) ++ [u])
    linarith
  | case3 u rest h ih =>
    rw [removeLoops, dif_neg h]
    cases hrest : rest with
    | nil =>
      rw [removeLoops]
    | cons b t =>
      have hh : (removeLoops rest).head? = some b := by
        rw [removeLoops_head?, hrest]
        rfl
      rw [← hrest]
      rw [pathWeight_cons_of_head? G u hh, pathWeight_cons_of_head? G u (by rw [hrest]; rfl)]
      exact add_le_add_left ih _

/-! ### The shortest-path search returns a minimum-weight path -/

theorem mem_allVerts_of_edge {G : MGraph} {e : (ℤ × ℤ) × EdgeData} (he : e ∈ G.edges) :
    e.1.1 ∈ allVerts G ∧ e.1.2 ∈ allVerts G := by
  unfold allVerts
  exact ⟨List.mem_flatMap.2 ⟨e, he, by simp⟩, List.mem_flatMap.2 ⟨e, he, by simp⟩⟩

theorem findEdge_mem_allVerts {G : MGraph} {a b : ℤ} (h : (findEdge G a b).isSome) :
    a ∈ allVerts G ∧ b ∈ allVerts G := by
  rcases findEdge_isSome_iff.1 h with ⟨e, he, hm⟩
  unfold edgeKeyMatches at hm
  simp only [Bool.or_eq_true, Bool.and_eq_true, decide_eq_true_eq] at hm
  have hv := mem_allVerts_of_edge he
  rcases hm with ⟨h1, h2⟩ | ⟨h1, h2⟩
  · exact ⟨h1 ▸ hv.1, h2 ▸ hv.2⟩
  · exact ⟨h2 ▸ hv.2, h1 ▸ hv.1⟩

theorem mem_pairs_fst_or_snd {x : ℤ} :
    ∀ {p : List ℤ}, 2 ≤ p.length → x ∈ p → ∃ q ∈ pairs p, x = q.1 ∨ x = q.2
  | [], _, hx => by simp at hx
  | [_], h2, _ => by simp at h2
  | a :: b :: rest, _, hx => by
    rcases List.mem_cons.1 hx with h | h
    · refine ⟨(a, b), ?_, Or.inl h⟩
      rw [pairs_cons_cons]
      exact List.mem_cons_self _ _
    cases rest with
    | nil =>
      have hb : x = b := by simpa using h
      refine ⟨(a, b), ?_, Or.inr hb⟩
      rw [pairs_cons_cons]
      exact List.mem_cons_self _ _
    | cons c cs =>
      rcases mem_pairs_fst_or_snd (by simp) h with ⟨q, hq, hxq⟩
      exact ⟨q, pairs_subset_cons a _ hq, hxq⟩

theorem nodup_length_le {p L : List ℤ} (hnd : p.Nodup) (hsub : ∀ x ∈ p, x ∈ L) :
    p.length ≤ L.length := by
  have h1 : p.toFinset.card = p.length := List.toFinset_card_of_nodup hnd
  have h2 : p.toFinset ⊆ L.toFinset := by
    intro x hx
    exact List.mem_toFinset.2 (hsub x (List.mem_toFinset.1 hx))
  calc p.length = p.toFinset.card := h1.symm
    _ ≤ L.toFinset.card := Finset.card_le_card h2
    _ ≤ L.length := L.toFinset_card_le

theorem isPath_removeLoops {G : MGraph} {s t : ℤ} {q : List ℤ} (hq : IsPath G s t q) :
    IsPath G s t (removeLoops q) := by
  refine ⟨?_, ?_, ?_⟩
  · rw [removeLoops_head?]
    exact hq.1
  · rw [removeLoops_getLast?]
    exact hq.2.1
  · exact fun r hr => hq.2.2 r (removeLoops_pairs_subset q hr)

theorem isPath_mem_enum {G : MGraph} {s t : ℤ} {q : List ℤ} (hs : s ∈ nodeIds G)
    (hq : IsPath G s t q) (hnd : q.Nodup) :
    q ∈ simplePathsAux G t (fuelOf G) s [] := by
  refine simplePathsAux_complete hq.1 hq.2.1 hq.2.2 hnd (by simp) ?_
  cases hq' : q with
  | nil =>
    have := hq.1
    rw [hq'] at this
    simp at this
  | cons a rest =>
    cases rest with
    | nil =>
      unfold fuelOf
      simp
    | cons b rs =>
      rw [← hq']
      have hall : ∀ x ∈ q, x ∈ allVerts G := by
        intro x hx
        rcases mem_pairs_fst_or_snd (by rw [hq']; simp) hx with ⟨qq, hqq, hxq⟩
        have hedge := hq.2.2 qq hqq
        rcases findEdge_mem_allVerts hedge with ⟨h1, h2⟩
        rcases hxq with rfl | rfl
        · exact h1
        · exact h2
      have := nodup_length_le hnd hall
      unfold fuelOf
      omega

theorem shortestPathNx_spec {G : MGraph} {s t : ℤ} (hw : EdgeWeightsNonneg G)
    (hs : s ∈ nodeIds G) (ht : t ∈ nodeIds G) (hex : ∃ p, IsPath G s t p) :
    ∃ p, shortestPathNx G s t = some p ∧ IsPath G s t p ∧
      ∀ q, IsPath G s t q → pathWeight G p ≤ pathWeight G q := by
  rcases hex with ⟨p₀, hp₀⟩
  have hmem₀ := isPath_mem_enum hs (isPath_removeLoops hp₀) (removeLoops_nodup p₀)
  have hne : simplePathsAux G t (fuelOf G) s [] ≠ [] := by
    intro h
    rw [h] at hmem₀
    simp at hmem₀
  unfold shortestPathNx
  rw [if_pos ⟨hs, ht⟩]
  obtain ⟨p, hp⟩ := Option.isSome_iff_exists.1 (pickMin_isSome hne)
  refine ⟨p, hp, ?_, ?_⟩
  · exact simplePathsAux_sound (pickMin_mem hp)
  · intro q hq
    have hmemq := isPath_mem_enum hs (isPath_removeLoops hq) (removeLoops_nodup q)
    exact le_trans (pickMin_le hp _ hmemq) (removeLoops_weight_le hw q)

theorem shortestPathNx_isPath {G : MGraph} {s t : ℤ} {p : List ℤ}
    (h : shortestPathNx G s t = some p) : IsPath G s t p := by
  unfold shortestPathNx at h
  by_cases hc : s ∈ nodeIds G ∧ t ∈ nodeIds G
  · rw [if_pos hc] at h
    exact simplePathsAux_sound (pickMin_mem h)
  · rw [if_neg hc] at h
    exact absurd h (by simp)

theorem shortestPathNx_eq_none {G : MGraph} {s t : ℤ}
    (h : s ∉ nodeIds G ∨ t ∉ nodeIds G ∨ ¬ ∃ p, IsPath G s t p) :
    shortestPathNx G s t = none := by
  cases hsp : shortestPathNx G s t with
  | none => rfl
  | some p =>
    exfalso
    have hpath := shortestPathNx_isPath hsp
    unfold shortestPathNx at hsp
    by_cases hc : s ∈ nodeIds G ∧ t ∈ nodeIds G
    · rcases h with h | h | h
      · exact h hc.1
      · exact h hc.2
      · exact h ⟨p, hpath⟩
    · rw [if_neg hc] at hsp
      exact Option.noConfusion hsp

/-! ### Assembling the route result -/

theorem lookupNode_isSome_iff {G : MGraph} {x : ℤ} :
    (lookupNode G x).isSome ↔ x ∈ nodeIds G := by
  unfold lookupNode nodeIds
  cases hf : G.nodes.find? fun p => p.1 = x with
  | none =>
    simp only [Option.map_none', Option.isSome_none, Bool.false_eq_true, false_iff]
    intro hx
    rcases List.mem_map.1 hx with ⟨p, hp, hpx⟩
    have := List.find?_eq_none.1 hf p hp
    simp [hpx] at this
  | some p =>
    simp only [Option.map_some', Option.isSome_some, true_iff]
    have hp := @List.find?_some _ (fun p => p.1 = x) p G.nodes hf
    simp only [decide_eq_true_eq] at hp
    exact List.mem_map.2 ⟨p, List.mem_of_find?_eq_some hf, hp⟩

theorem wtOf_eq_of_findEdge {G : MGraph} {u v : ℤ} {e : EdgeData}
    (h : findEdge G u v = some e) : wtOf G u v = e.weight := by
  unfold wtOf
  rw [h]
  rfl

theorem findEdge_endpoints_mem {G : MGraph} {u v : ℤ} (hc : EdgesClosed G)
    (h : (findEdge G u v).isSome) : u ∈ nodeIds G ∧ v ∈ nodeIds G := by
  rcases findEdge_isSome_iff.1 h with ⟨e, he, hm⟩
  unfold edgeKeyMatches at hm
  simp only [Bool.or_eq_true, Bool.and_eq_true, decide_eq_true_eq] at hm
  have hclosed := hc e he
  rcases hm with ⟨h1, h2⟩ | ⟨h1, h2⟩
  · exact ⟨h1 ▸ hclosed.1, h2 ▸ hclosed.2⟩
  · exact ⟨h2 ▸ hclosed.2, h1 ▸ hclosed.1⟩

theorem path_nodes_mem {G : MGraph} {s t : ℤ} {p : List ℤ} (hc : EdgesClosed G)
    (hs : s ∈ nodeIds G) (hp : IsPath G s t p) : ∀ x ∈ p, x ∈ nodeIds G := by
  intro x hx
  cases hq' : p with
  | nil =>
    rw [hq'] at hx
    simp at hx
  | cons a rest =>
    cases rest with
    | nil =>
      have ha : a = s := by
        have h1 := hp.1
        rw [hq'] at h1
        simpa using h1
      have hxa : x = a := by
        rw [hq'] at hx
        simpa using hx
      rw [hxa, ha]
      exact hs
    | cons b rs =>
      rcases mem_pairs_fst_or_snd (by rw [hq']; simp) hx with ⟨q, hq, hxq⟩
      have hedge := hp.2.2 q hq
      have hmem := findEdge_endpoints_mem hc hedge
      rcases hxq with rfl | rfl
      · exact hmem.1
      · exact hmem.2

theorem pathTime_cons_of_head? {l : List ℤ} {h : ℤ} (G : MGraph) (u : ℤ)
    (hh : l.head? = some h) :
    pathTime G (u :: l) = ((wtOf G u h / 40) * 60 + 1) + pathTime G l := by
  unfold pathTime
  rw [pairs_cons_of_head? u hh, List.map_cons, List.sum_cons]

theorem legsOf_spec {G : MGraph} :
    ∀ {p : List ℤ} {legs : List Leg} {td tt : ℚ},
      legsOf G p = some (legs, td, tt) →
      legs.map Leg.from_id = p.dropLast ∧
      legs.map Leg.to_id = p.tail ∧
      td = pathWeight G p ∧ tt = pathTime G p ∧
      ∀ leg ∈ legs, ∃ e, findEdge G leg.from_id leg.to_id = some e ∧
        leg.line = e.line ∧ leg.distance = pyRound e.weight 2 ∧
        leg.time = pyRound ((e.weight / 40) * 60 + 1) 1
  | [], legs, td, tt => by
    intro h
    have h' : some (([] : List Leg), (0 : ℚ), (0 : ℚ)) = some (legs, td, tt) := h
    rw [Option.some_inj, Prod.mk.injEq, Prod.mk.injEq] at h'
    obtain ⟨rfl, rfl, rfl⟩ := h'
    exact ⟨rfl, rfl, rfl, rfl, by simp⟩
  | [a], legs, td, tt => by
    intro h
    have h' : some (([] : List Leg), (0 : ℚ), (0 : ℚ)) = some (legs, td, tt) := h
    rw [Option.some_inj, Prod.mk.injEq, Prod.mk.injEq] at h'
    obtain ⟨rfl, rfl, rfl⟩ := h'
    exact ⟨rfl, rfl, rfl, rfl, by simp⟩
  | u :: v :: rest, legs, td, tt => by
    intro h
    rw [legsOf] at h
    cases hfe : findEdge G u v with
    | none =>
      rw [hfe] at h
      simp at h
    | some e =>
      rw [hfe] at h
      cases hcu : lookupNode G u with
      | none =>
        rw [hcu] at h
        simp at h
      | some cu =>
        rw [hcu] at h
        cases hcv : lookupNode G v with
        | none =>
          rw [hcv] at h
          simp at h
        | some cv =>
          rw [hcv] at h
          cases hrec : legsOf G (v :: rest) with
          | none =>
            rw [hrec] at h
            simp at h
          | some trip =>
            obtain ⟨ls, td', tt'⟩ := trip
            rw [hrec] at h
            simp only [Option.some_bind, Option.some_inj, Prod.mk.injEq] at h
            obtain ⟨rfl, rfl, rfl⟩ := h
            have ih := legsOf_spec hrec
            refine ⟨?_, ?_, ?_, ?_, ?_⟩
            · rw [List.map_cons, ih.1]
              rfl
            · rw [List.map_cons, ih.2.1]
              rfl
            · rw [pathWeight_cons_of_head? G u (rfl : (v :: rest).head? = some v),
                ih.2.2.1, wtOf_eq_of_findEdge hfe]
            · rw [pathTime_cons_of_head? G u (rfl : (v :: rest).head? = some v),
                ih.2.2.2.1, wtOf_eq_of_findEdge hfe]
            · intro leg hleg
              rcases List.mem_cons.1 hleg with h1 | h1
              · subst h1
                exact ⟨e, hfe, rfl, rfl, rfl⟩
              · exact ih.2.2.2.2 leg h1

theorem legsOf_isSome {G : MGraph} :
    ∀ {p : List ℤ}, (∀ q ∈ pairs p, (findEdge G q.1 q.2).isSome) →
      (∀ x ∈ p, (lookupNode G x).isSome) → (legsOf G p).isSome
  | [], _, _ => rfl
  | [_], _, _ => rfl
  | u :: v :: rest, hadj, hn => by
    rw [legsOf]
    obtain ⟨e, hfe⟩ := Option.isSome_iff_exists.1
      (hadj (u, v) (by rw [pairs_cons_cons]; exact List.mem_cons_self _ _))
    obtain ⟨cu, hcu⟩ := Option.isSome_iff_exists.1 (hn u (List.mem_cons_self _ _))
    obtain ⟨cv, hcv⟩ := Option.isSome_iff_exists.1
      (hn v (List.mem_cons_of_mem _ (List.mem_cons_self _ _)))
    have hrec := legsOf_isSome
      (fun q hq => hadj q (pairs_subset_cons u _ hq))
      (fun x hx => hn x (List.mem_cons_of_mem _ hx))
    obtain ⟨⟨ls, td, tt⟩, hls⟩ := Option.isSome_iff_exists.1 hrec
    rw [hfe, hcu, hcv, hls]
    rfl

theorem stationsOf_spec {G : MGraph} :
    ∀ {p : List ℤ} {sts : List StationOut}, stationsOf G p = some sts →
      sts.map StationOut.id = p
  | [], sts => by
    intro h
    have h' : some ([] : List StationOut) = some sts := h
    rw [Option.some_inj] at h'
    rw [← h']
    rfl
  | x :: rest, sts => by
    intro h
    rw [stationsOf] at h
    cases hd : lookupNode G x with
    | none =>
      rw [hd] at h
      simp at h
    | some d =>
      rw [hd] at h
      cases htl : stationsOf G rest with
      | none =>
        rw [htl] at h
        simp at h
      | some tl =>
        rw [htl] at h
        have h' : some ((⟨x, d.name, d.pos.2, d.pos.1, d.line⟩ : StationOut) :: tl) = some sts := h
        rw [Option.some_inj] at h'
        rw [← h', List.map_cons, stationsOf_spec htl]

theorem stationsOf_isSome {G : MGraph} :
    ∀ {p : List ℤ}, (∀ x ∈ p, (lookupNode G x).isSome) → (stationsOf G p).isSome
  | [], _ => rfl
  | x :: rest, hn => by
    rw [stationsOf]
    obtain ⟨d, hd⟩ := Option.isSome_iff_exists.1 (hn x (List.mem_cons_self _ _))
    obtain ⟨tl, htl⟩ := Option.isSome_iff_exists.1
      (stationsOf_isSome fun y hy => hn y (List.mem_cons_of_mem _ hy))
    rw [hd, htl]
    rfl

theorem routeOf_eq {G : MGraph} {p : List ℤ} {legs : List Leg} {td tt : ℚ}
    {sts : List StationOut} (hlg : legsOf G p = some (legs, td, tt))
    (hst : stationsOf G p = some sts) :
    routeOf G p = some ⟨p, sts, legs, pyRound td 2, pyRound tt 1, p.length⟩ := by
  unfold routeOf
  rw [hlg, hst]

theorem routeOf_elim {G : MGraph} {p : List ℤ} {r : RouteResult}
    (h : routeOf G p = some r) :
    ∃ legs td tt sts, legsOf G p = some (legs, td, tt) ∧ stationsOf G p = some sts ∧
      r = ⟨p, sts, legs, pyRound td 2, pyRound tt 1, p.length⟩ := by
  unfold routeOf at h
  cases hlg : legsOf G p with
  | none =>
    rw [hlg] at h
    simp at h
  | some x =>
    obtain ⟨legs, td, tt⟩ := x
    cases hst : stationsOf G p with
    | none =>
      rw [hlg, hst] at h
      simp at h
    | some sts =>
      rw [hlg, hst] at h
      rw [Option.some_inj] at h
      exact ⟨legs, td, tt, sts, rfl, rfl, h.symm⟩

theorem find_shortest_path_eq {G : MGraph} {s t : ℤ} {p : List ℤ}
    (hsp : shortestPathNx G s t = some p) :
    find_shortest_path G s t = routeOf G p := by
  unfold find_shortest_path
  rw [hsp]

theorem find_shortest_path_elim {G : MGraph} {s t : ℤ} {r : RouteResult}
    (h : find_shortest_path G s t = some r) :
    ∃ p legs td tt sts, shortestPathNx G s t = some p ∧
      legsOf G p = some (legs, td, tt) ∧ stationsOf G p = some sts ∧
      r = ⟨p, sts, legs, pyRound td 2, pyRound tt 1, p.length⟩ := by
  cases hsp : shortestPathNx G s t with
  | none =>
    unfold find_shortest_path at h
    rw [hsp] at h
    exact absurd h (by simp)
  | some p =>
    have h' : routeOf G p = some r := by
      rw [← find_shortest_path_eq hsp]
      exact h
    rcases routeOf_elim h' with ⟨legs, td, tt, sts, hlg, hst, hr⟩
    exact ⟨p, legs, td, tt, sts, rfl, hlg, hst, hr⟩

theorem find_shortest_path_none {G : MGraph} {s t : ℤ}
    (h : shortestPathNx G s t = none) : find_shortest_path G s t = none := by
  unfold find_shortest_path
  rw [h]

/-! ### Graph construction: overwrite policy, failure, and closedness -/

/-- Keyed lookup in a node association list. -/
def lookupK (x : ℤ) (l : List (ℤ × NodeData)) : Option NodeData :=
  (l.find? fun p => p.1 = x).map Prod.snd

theorem lookupNode_eq_lookupK (G : MGraph) (x : ℤ) :
    lookupNode G x = lookupK x G.nodes := rfl

theorem lookupK_updateAssoc_self (x : ℤ) (v : NodeData) :
    ∀ l : List (ℤ × NodeData), lookupK x (updateAssoc x v l) = some v
  | [] => by simp [lookupK, updateAssoc, List.find?]
  | (k', v') :: rest => by
    rw [updateAssoc]
    by_cases hk : k' = x
    · rw [if_pos hk]
      simp [lookupK, List.find?]
    · rw [if_neg hk]
      unfold lookupK
      rw [List.find?_cons_of_neg _ (by simp [hk])]
      exact lookupK_updateAssoc_self x v rest

theorem lookupK_updateAssoc_other {x k : ℤ} (hne : k ≠ x) (v : NodeData) :
    ∀ l : List (ℤ × NodeData), lookupK x (updateAssoc k v l) = lookupK x l
  | [] => by
    unfold lookupK updateAssoc
    rw [List.find?_cons_of_neg _ (by simp [hne])]
  | (k', v') :: rest => by
    rw [updateAssoc]
    by_cases hk : k' = k
    · rw [if_pos hk]
      unfold lookupK
      rw [List.find?_cons_of_neg _ (by simp [hne]),
        List.find?_cons_of_neg _ (by simp [hk ▸ hne])]
    · rw [if_neg hk]
      unfold lookupK
      by_cases hx : k' = x
      · rw [List.find?_cons_of_pos _ (by simp [hx]), List.find?_cons_of_pos _ (by simp [hx])]
      · rw [List.find?_cons_of_neg _ (by simp [hx]), List.find?_cons_of_neg _ (by simp [hx])]
        exact lookupK_updateAssoc_other hne v rest

theorem keys_updateAssoc {x k : ℤ} (v : NodeData) :
    ∀ l : List (ℤ × NodeData),
      x ∈ (updateAssoc k v l).map Prod.fst ↔ x = k ∨ x ∈ l.map Prod.fst
  | [] => by simp [updateAssoc]
  | (k', v') :: rest => by
    rw [updateAssoc]
    by_cases hk : k' = k
    · rw [if_pos hk]
      simp [hk]
    · rw [if_neg hk]
      simp only [List.map_cons, List.mem_cons]
      rw [keys_updateAssoc v rest]
      tauto

theorem insertRecord_elim {acc acc' : List (ℤ × NodeData)} {ln : String}
    {st : RawStation} (h : insertRecord acc (ln, st) = some acc') :
    ∃ la lo, pyFloat st.latitude = some la ∧ pyFloat st.longitude = some lo ∧
      acc' = updateAssoc st.id ⟨(lo, la), st.name, ln, st.order⟩ acc := by
  unfold insertRecord at h
  cases hla : pyFloat st.latitude with
  | none =>
    rw [hla] at h
    simp at h
  | some la =>
    rw [hla] at h
    cases hlo : pyFloat st.longitude with
    | none =>
      rw [hlo] at h
      simp at h
    | some lo =>
      rw [hlo] at h
      have h' : some (updateAssoc st.id ⟨(lo, la), st.name, ln, st.order⟩ acc) = some acc' := h
      rw [Option.some_inj] at h'
      exact ⟨la, lo, rfl, rfl, h'.symm⟩

theorem nodesOfRecords_cons_elim {r : String × RawStation}
    {rs : List (String × RawStation)} {acc out : List (ℤ × NodeData)}
    (h : nodesOfRecords (r :: rs) acc = some out) :
    ∃ acc₁, insertRecord acc r = some acc₁ ∧ nodesOfRecords rs acc₁ = some out := by
  rw [nodesOfRecords] at h
  cases hins : insertRecord acc r with
  | none =>
    rw [hins] at h
    simp at h
  | some acc₁ =>
    rw [hins] at h
    exact ⟨acc₁, rfl, h⟩

theorem nodesOfRecords_lookup_of_absent {x : ℤ} :
    ∀ {rs : List (String × RawStation)} {acc out : List (ℤ × NodeData)},
      nodesOfRecords rs acc = some out → (∀ r ∈ rs, r.2.id ≠ x) →
      lookupK x out = lookupK x acc
  | [], acc, out => by
    intro h _
    rw [nodesOfRecords, Option.some_inj] at h
    rw [h]
  | r :: rs, acc, out => by
    intro h habs
    rcases nodesOfRecords_cons_elim h with ⟨acc₁, hins, hrec⟩
    obtain ⟨ln, st⟩ := r
    rcases insertRecord_elim hins with ⟨la, lo, _, _, hacc₁⟩
    have hne : st.id ≠ x := habs (ln, st) (List.mem_cons_self _ _)
    rw [nodesOfRecords_lookup_of_absent hrec fun q hq => habs q (List.mem_cons_of_mem _ hq),
      hacc₁, lookupK_updateAssoc_other hne]

theorem nodesOfRecords_lookup_last {x : ℤ} {ln : String} {st : RawStation} :
    ∀ {rs₁ rs₂ : List (String × RawStation)} {acc out : List (ℤ × NodeData)},
      nodesOfRecords (rs₁ ++ (ln, st) :: rs₂) acc = some out →
      st.id = x → (∀ r ∈ rs₂, r.2.id ≠ x) →
      ∃ la lo, pyFloat st.latitude = some la ∧ pyFloat st.longitude = some lo ∧
        lookupK x out = some ⟨(lo, la), st.name, ln, st.order⟩
  | [], rs₂, acc, out => by
    intro h hid habs
    rw [List.nil_append] at h
    rcases nodesOfRecords_cons_elim h with ⟨acc₁, hins, hrec⟩
    rcases insertRecord_elim hins with ⟨la, lo, hla, hlo, hacc₁⟩
    refine ⟨la, lo, hla, hlo, ?_⟩
    rw [nodesOfRecords_lookup_of_absent hrec habs, hacc₁, hid,
      lookupK_updateAssoc_self]
  | r :: rs₁, rs₂, acc, out => by
    intro h hid habs
    rw [List.cons_append] at h
    rcases nodesOfRecords_cons_elim h with ⟨acc₁, hins, hrec⟩
    exact nodesOfRecords_lookup_last hrec hid habs

theorem nodesOfRecords_none :
    ∀ {rs : List (String × RawStation)} {acc : List (ℤ × NodeData)},
      (∃ r ∈ rs, pyFloat r.2.latitude = none ∨ pyFloat r.2.longitude = none) →
      nodesOfRecords rs acc = none
  | [], acc => by
    intro h
    simp at h
  | r :: rs, acc => by
    intro h
    rw [nodesOfRecords]
    rcases h with ⟨r', hr', hbad⟩
    rcases List.mem_cons.1 hr' with heq | hmem
    · subst heq
      have : insertRecord acc r' = none := by
        unfold insertRecord
        rcases hbad with hla | hlo
        · rw [hla]
          rfl
        · cases hla : pyFloat r'.2.latitude with
          | none => rfl
          | some la => rw [hlo]; rfl
      rw [this]
      rfl
    · cases hins : insertRecord acc r with
      | none => rfl
      | some acc₁ =>
        have hnone : nodesOfRecords rs acc₁ = none := nodesOfRecords_none ⟨r', hmem, hbad⟩
        rw [Option.some_bind, hnone]

theorem nodesOfRecords_keys {x : ℤ} :
    ∀ {rs : List (String × RawStation)} {acc out : List (ℤ × NodeData)},
      nodesOfRecords rs acc = some out →
      ((∃ r ∈ rs, r.2.id = x) ∨ x ∈ acc.map Prod.fst) → x ∈ out.map Prod.fst
  | [], acc, out => by
    intro h hx
    rw [nodesOfRecords, Option.some_inj] at h
    rcases hx with ⟨r, hr, _⟩ | hx
    · simp at hr
    · rw [← h]
      exact hx
  | r :: rs, acc, out => by
    intro h hx
    rcases nodesOfRecords_cons_elim h with ⟨acc₁, hins, hrec⟩
    obtain ⟨ln, st⟩ := r
    rcases insertRecord_elim hins with ⟨la, lo, _, _, hacc₁⟩
    refine nodesOfRecords_keys hrec ?_
    rcases hx with ⟨r', hr', hid⟩ | hx
    · rcases List.mem_cons.1 hr' with heq | hmem
      · right
        rw [hacc₁, keys_updateAssoc]
        left
        rw [← hid, heq]
      · exact Or.inl ⟨r', hmem, hid⟩
    · right
      rw [hacc₁, keys_updateAssoc]
      right
      exact hx

theorem mem_updateEdge {u v : ℤ} {d : EdgeData} {e : (ℤ × ℤ) × EdgeData} :
    ∀ {l : List ((ℤ × ℤ) × EdgeData)}, e ∈ updateEdge u v d l →
      e ∈ l ∨ (e.1.1 = u ∧ e.1.2 = v) ∨ (e.1.1 = v ∧ e.1.2 = u)
  | [] => by
    intro h
    rw [updateEdge] at h
    have heq := List.mem_singleton.1 h
    subst heq
    right
    left
    exact ⟨rfl, rfl⟩
  | (key, d') :: rest => by
    intro h
    rw [updateEdge] at h
    by_cases hm : edgeKeyMatches u v key
    · rw [if_pos hm] at h
      rcases List.mem_cons.1 h with heq | hmem
      · unfold edgeKeyMatches at hm
        simp only [Bool.or_eq_true, Bool.and_eq_true, decide_eq_true_eq] at hm
        subst heq
        rcases hm with ⟨h1, h2⟩ | ⟨h1, h2⟩
        · right
          left
          exact ⟨h1, h2⟩
        · right
          right
          exact ⟨h1, h2⟩
      · exact Or.inl (List.mem_cons_of_mem _ hmem)
    · rw [if_neg hm] at h
      rcases List.mem_cons.1 h with heq | hmem
      · exact Or.inl (heq ▸ List.mem_cons_self _ _)
      · rcases mem_updateEdge hmem with h1 | h1
        · exact Or.inl (List.mem_cons_of_mem _ h1)
        · exact Or.inr h1

theorem addEdgesOf_mem {T : TrigModel} {ln : String} {e : (ℤ × ℤ) × EdgeData} :
    ∀ {ss : List RawStation} {acc out : List ((ℤ × ℤ) × EdgeData)},
      addEdgesOf T ln ss acc = some out → e ∈ out →
      e ∈ acc ∨ ((∃ s ∈ ss, e.1.1 = s.id) ∧ (∃ s ∈ ss, e.1.2 = s.id))
  | [], acc, out => by
    intro h he
    have h' : some acc = some out := h
    rw [Option.some_inj] at h'
    exact Or.inl (h' ▸ he)
  | [s], acc, out => by
    intro h he
    have h' : some acc = some out := h
    rw [Option.some_inj] at h'
    exact Or.inl (h' ▸ he)
  | s1 :: s2 :: rest, acc, out => by
    intro h he
    rw [addEdgesOf] at h
    cases h1 : pyFloat s1.latitude with
    | none => rw [h1] at h; simp at h
    | some la1 =>
    rw [h1] at h
    cases h2 : pyFloat s1.longitude with
    | none => rw [h2] at h; simp at h
    | some lo1 =>
    rw [h2] at h
    cases h3 : pyFloat s2.latitude with
    | none => rw [h3] at h; simp at h
    | some la2 =>
    rw [h3] at h
    cases h4 : pyFloat s2.longitude with
    | none => rw [h4] at h; simp at h
    | some lo2 =>
    rw [h4] at h
    simp only [Option.some_bind] at h
    rcases addEdgesOf_mem h he with hacc | ⟨⟨sa, hsa, ha⟩, ⟨sb, hsb, hb⟩⟩
    · rcases mem_updateEdge hacc with hl | ⟨ha, hb⟩ | ⟨ha, hb⟩
      · exact Or.inl hl
      · refine Or.inr ⟨⟨s1, List.mem_cons_self _ _, ha⟩,
          ⟨s2, List.mem_cons_of_mem _ (List.mem_cons_self _ _), hb⟩⟩
      · refine Or.inr ⟨⟨s2, List.mem_cons_of_mem _ (List.mem_cons_self _ _), ha⟩,
          ⟨s1, List.mem_cons_self _ _, hb⟩⟩
    · exact Or.inr ⟨⟨sa, List.mem_cons_of_mem _ hsa, ha⟩, ⟨sb, List.mem_cons_of_mem _ hsb, hb⟩⟩

theorem edgesOfCat_mem {T : TrigModel} {e : (ℤ × ℤ) × EdgeData} :
    ∀ {cat : Catalog} {acc out : List ((ℤ × ℤ) × EdgeData)},
      edgesOfCat T cat acc = some out → e ∈ out →
      e ∈ acc ∨ ∃ ln ss, (ln, ss) ∈ cat ∧
        ((∃ s ∈ ss, e.1.1 = s.id) ∧ (∃ s ∈ ss, e.1.2 = s.id))
  | [], acc, out => by
    intro h he
    rw [edgesOfCat, Option.some_inj] at h
    exact Or.inl (h ▸ he)
  | (ln, ss) :: cat, acc, out => by
    intro h he
    rw [edgesOfCat] at h
    cases hadd : addEdgesOf T ln ss acc with
    | none =>
      rw [hadd] at h
      simp at h
    | some acc₁ =>
      rw [hadd] at h
      simp only [Option.some_bind] at h
      rcases edgesOfCat_mem h he with hacc | ⟨ln', ss', hmem, hids⟩
      · rcases addEdgesOf_mem hadd hacc with hl | hids
        · exact Or.inl hl
        · exact Or.inr ⟨ln, ss, List.mem_cons_self _ _, hids⟩
      · exact Or.inr ⟨ln', ss', List.mem_cons_of_mem _ hmem, hids⟩

theorem build_graph_elim {T : TrigModel} {cat : Catalog} {G : MGraph}
    (h : build_graph T cat = some G) :
    nodesOfRecords (catRecords cat) [] = some G.nodes ∧
      edgesOfCat T cat [] = some G.edges := by
  unfold build_graph at h
  cases hn : nodesOfRecords (catRecords cat) [] with
  | none =>
    rw [hn] at h
    simp at h
  | some ns =>
    rw [hn] at h
    cases he : edgesOfCat T cat [] with
    | none =>
      rw [he] at h
      simp at h
    | some es =>
      rw [he] at h
      have h' : some (⟨ns, es⟩ : MGraph) = some G := h
      rw [Option.some_inj] at h'
      rw [← h']
      exact ⟨rfl, rfl⟩

theorem mem_catRecords {cat : Catalog} {ln : String} {ss : List RawStation}
    {st : RawStation} (hcat : (ln, ss) ∈ cat) (hst : st ∈ ss) :
    (ln, st) ∈ catRecords cat := by
  unfold catRecords
  exact List.mem_flatMap.2 ⟨(ln, ss), hcat, List.mem_map.2 ⟨st, hst, rfl⟩⟩

theorem build_graph_closed {T : TrigModel} {cat : Catalog} {G : MGraph}
    (h : build_graph T cat = some G) : EdgesClosed G := by
  rcases build_graph_elim h with ⟨hn, he⟩
  intro e hee
  rcases edgesOfCat_mem he hee with hacc | ⟨ln, ss, hmem, ⟨s1, hs1, h1⟩, ⟨s2, hs2, h2⟩⟩
  · simp at hacc
  · constructor
    · exact nodesOfRecords_keys hn (Or.inl ⟨(ln, s1), mem_catRecords hmem hs1, h1.symm⟩)
    · exact nodesOfRecords_keys hn (Or.inl ⟨(ln, s2), mem_catRecords hmem hs2, h2.symm⟩)

theorem build_graph_of_malformed {T : TrigModel} {cat : Catalog}
    (h : ∃ ln ss st, (ln, ss) ∈ cat ∧ st ∈ ss ∧
      (st.latitude = RawCoord.malformed ∨ st.longitude = RawCoord.malformed)) :
    build_graph T cat = none := by
  unfold build_graph
  rcases h with ⟨ln, ss, st, hcat, hst, hbad⟩
  have hnone : nodesOfRecords (catRecords cat) [] = none := by
    apply nodesOfRecords_none
    refine ⟨(ln, st), mem_catRecords hcat hst, ?_⟩
    rcases hbad with hb | hb
    · left
      rw [hb]
      rfl
    · right
      rw [hb]
      rfl
  rw [hnone]
  rfl

/-! ### Case normalization and the haversine formula -/

theorem toNat_ofNat_small {n : ℕ} (h : n < 55296) : (Char.ofNat n).toNat = n := by
  unfold Char.ofNat
  rw [dif_pos (Or.inl h : n.isValidChar)]
  rfl

theorem pyUpperChar_pyUpperChar (c : Char) :
    pyUpperChar (pyUpperChar c) = pyUpperChar c := by
  unfold pyUpperChar
  by_cases h : 97 ≤ c.toNat ∧ c.toNat ≤ 122
  · rw [if_pos h]
    have ht : (Char.ofNat (c.toNat - 32)).toNat = c.toNat - 32 :=
      toNat_ofNat_small (by omega)
    rw [if_neg (by rw [ht]; omega)]
  · rw [if_neg h, if_neg h]

theorem pyUpperChar_pyLowerChar (c : Char) :
    pyUpperChar (pyLowerChar c) = pyUpperChar c := by
  unfold pyUpperChar pyLowerChar
  by_cases h : 65 ≤ c.toNat ∧ c.toNat ≤ 90
  · rw [if_pos h]
    have ht : (Char.ofNat (c.toNat + 32)).toNat = c.toNat + 32 :=
      toNat_ofNat_small (by omega)
    rw [if_pos (by rw [ht]; omega), ht]
    have h2 : c.toNat + 32 - 32 = c.toNat := by omega
    rw [h2, Char.ofNat_toNat, if_neg (by omega)]
  · rw [if_neg h]

theorem pyUpper_pyUpper (s : String) : pyUpper (pyUpper s) = pyUpper s := by
  unfold pyUpper
  have hcomp : (s.data.map pyUpperChar).map pyUpperChar = s.data.map pyUpperChar := by
    rw [List.map_map]
    exact List.map_congr_left fun c _ => pyUpperChar_pyUpperChar c
  exact congrArg String.mk hcomp

theorem pyUpper_pyLower (s : String) : pyUpper (pyLower s) = pyUpper s := by
  unfold pyUpper pyLower
  have hcomp : (s.data.map pyLowerChar).map pyUpperChar = s.data.map pyUpperChar := by
    rw [List.map_map]
    exact List.map_congr_left fun c _ => pyUpperChar_pyLowerChar c
  exact congrArg String.mk hcomp

theorem haversine_symm (T : TrigModel) (hodd : ∀ x, T.sin (-x) = - T.sin x)
    (lat1 lon1 lat2 lon2 : ℚ) :
    haversine_distance T lat1 lon1 lat2 lon2 = haversine_distance T lat2 lon2 lat1 lon1 := by
  have key : ∀ a b : ℚ, T.sin ((a - b) / 2) ^ 2 = T.sin ((b - a) / 2) ^ 2 := by
    intro a b
    have h1 : (a - b) / 2 = -((b - a) / 2) := by ring
    rw [h1, hodd]
    ring
  unfold haversine_distance
  rw [key (radiansM T lat2), key (radiansM T lon2),
    mul_comm (T.cos (radiansM T lat1))]

theorem haversine_self (T : TrigModel) (hodd : ∀ x, T.sin (-x) = - T.sin x)
    (hsqrt : T.sqrt 0 = 0) (hasin : T.asin 0 = 0) (lat lon : ℚ) :
    haversine_distance T lat lon lat lon = 0 := by
  have hsin0 : T.sin 0 = 0 := by
    have h := hodd 0
    rw [neg_zero] at h
    linarith
  unfold haversine_distance
  rw [sub_self, sub_self, zero_div, hsin0]
  have harg : (0 : ℚ) ^ 2 + T.cos (radiansM T lat) * T.cos (radiansM T lat) * 0 ^ 2 = 0 := by
    ring
  rw [harg, hsqrt, hasin]
  ring

/-! ### The claims -/

/-- Claim C1: for every pair of station ids that are both present in the
built graph and connected, `find_shortest_path` returns a result whose
`path` is a sequence of station ids forming a path in the graph from
source to target whose sum of edge weights is minimal among all such
paths.  (The nonnegativity of the stored haversine weights, automatic for
the real `math` library, is an explicit hypothesis over the abstract
trigonometric model.) -/
theorem claim_C1_shortest_path_minimal {T : TrigModel} {cat : Catalog} {G : MGraph}
    {source_id target_id : ℤ} (hbuild : build_graph T cat = some G)
    (hw : EdgeWeightsNonneg G) (hs : source_id ∈ nodeIds G)
    (ht : target_id ∈ nodeIds G) (hconn : ∃ p, IsPath G source_id target_id p) :
    ∃ r, find_shortest_path G source_id target_id = some r ∧
      IsPath G source_id target_id r.path ∧
      ∀ q, IsPath G source_id target_id q → pathWeight G r.path ≤ pathWeight G q := by
  have hc := build_graph_closed hbuild
  obtain ⟨p, hsp, hpath, hmin⟩ := shortestPathNx_spec hw hs ht hconn
  have hn : ∀ x ∈ p, (lookupNode G x).isSome := fun x hx =>
    lookupNode_isSome_iff.2 (path_nodes_mem hc hs hpath x hx)
  obtain ⟨⟨legs, td, tt⟩, hlg⟩ :=
    Option.isSome_iff_exists.1 (legsOf_isSome hpath.2.2 hn)
  obtain ⟨sts, hst⟩ := Option.isSome_iff_exists.1 (stationsOf_isSome hn)
  refine ⟨⟨p, sts, legs, pyRound td 2, pyRound tt 1, p.length⟩, ?_, hpath, hmin⟩
  rw [find_shortest_path_eq hsp, routeOf_eq hlg hst]

unseal Rat.add Rat.mul Rat.sub Rat.inv in
theorem claim_C1_witness :
    build_graph witT witCat = some witG ∧ EdgeWeightsNonneg witG ∧
    (1 : ℤ) ∈ nodeIds witG ∧ (2 : ℤ) ∈ nodeIds witG ∧
    ∃ r, find_shortest_path witG 1 2 = some r ∧ IsPath witG 1 2 r.path ∧
      ∀ q, IsPath witG 1 2 q → pathWeight witG r.path ≤ pathWeight witG q :=
  ⟨by decide, by decide, by decide, by decide,
    claim_C1_shortest_path_minimal
      (by decide : build_graph witT witCat = some witG) (by decide) (by decide)
      (by decide) ⟨[1, 2], by decide⟩⟩

/-- Claim C2 (amended): for every successful route result and every leg,
the reported `distance` is the edge weight rounded to 2 decimal places,
and the reported `time` is `(w / 40) * 60 + 1` minutes rounded to 1
decimal place computed from the unrounded edge weight `w` (not from the
already-rounded reported distance), with the same formula applied to
every leg regardless of line. -/
theorem claim_C2_leg_formulas {G : MGraph} {s t : ℤ} {r : RouteResult}
    (h : find_shortest_path G s t = some r) :
    ∀ leg ∈ r.route_details, ∃ e, findEdge G leg.from_id leg.to_id = some e ∧
      leg.distance = pyRound e.weight 2 ∧
      leg.time = pyRound ((e.weight / 40) * 60 + 1) 1 := by
  rcases find_shortest_path_elim h with ⟨p, legs, td, tt, sts, hsp, hlg, hst, hr⟩
  subst hr
  intro leg hleg
  rcases (legsOf_spec hlg).2.2.2.2 leg hleg with ⟨e, he, _, hdist, htime⟩
  exact ⟨e, he, hdist, htime⟩

unseal Rat.add Rat.mul Rat.sub Rat.inv in
theorem claim_C2_counterexample :
    find_shortest_path cexG 1 2 = some cexR ∧
    cexR.route_details = [cexLeg] ∧
    cexLeg.distance = 123 / 100 ∧ cexLeg.time = 29 / 10 ∧
    pyRound ((cexLeg.distance / 40) * 60 + 1) 1 = 28 / 10 ∧
    cexLeg.time ≠ pyRound ((cexLeg.distance / 40) * 60 + 1) 1 :=
  ⟨by decide, by decide, by decide, by decide, by decide, by decide⟩

unseal Rat.add Rat.mul Rat.sub Rat.inv in
theorem claim_C2_witness :
    find_shortest_path cexG 1 2 = some cexR ∧
    ∀ leg ∈ cexR.route_details, ∃ e, findEdge cexG leg.from_id leg.to_id = some e ∧
      leg.distance = pyRound e.weight 2 ∧
      leg.time = pyRound ((e.weight / 40) * 60 + 1) 1 :=
  ⟨by decide, claim_C2_leg_formulas
    (by decide : find_shortest_path cexG 1 2 = some cexR)⟩

/-- Claim C3: for every successful route result, `total_distance` is the
sum of the unrounded edge weights along the path rounded once to 2
decimal places at the end, and `total_time` is the sum of the unrounded
per-leg times rounded once to 1 decimal place at the end. -/
theorem claim_C3_totals_once_rounded {G : MGraph} {s t : ℤ} {r : RouteResult}
    (h : find_shortest_path G s t = some r) :
    r.total_distance = pyRound (pathWeight G r.path) 2 ∧
    r.total_time = pyRound (pathTime G r.path) 1 := by
  rcases find_shortest_path_elim h with ⟨p, legs, td, tt, sts, hsp, hlg, hst, hr⟩
  subst hr
  have hspec := legsOf_spec hlg
  constructor
  · rw [hspec.2.2.1]
  · rw [hspec.2.2.2.1]

unseal Rat.add Rat.mul Rat.sub Rat.inv in
theorem claim_C3_witness :
    find_shortest_path witG 1 2 = some witR ∧
    witR.total_distance = pyRound (pathWeight witG witR.path) 2 ∧
    witR.total_time = pyRound (pathTime witG witR.path) 1 :=
  ⟨by decide, claim_C3_totals_once_rounded
    (by decide : find_shortest_path witG 1 2 = some witR)⟩

/-- Claim C4: `find_shortest_path` returns `None` (a plain value, not a
crash) whenever an endpoint id is absent from the graph or no path
connects the two ids, and `get_station_by_id` returns `None` for an id
that is not a node. -/
theorem claim_C4_notfound (G : MGraph) (s t x : ℤ) :
    ((s ∉ nodeIds G ∨ t ∉ nodeIds G ∨ ¬ ∃ p, IsPath G s t p) →
      find_shortest_path G s t = none) ∧
    (x ∉ nodeIds G → get_station_by_id G x = none) := by
  constructor
  · intro h
    exact find_shortest_path_none (shortestPathNx_eq_none h)
  · intro hx
    unfold get_station_by_id
    have hnone : lookupNode G x = none := by
      cases hl : lookupNode G x with
      | none => rfl
      | some d => exact absurd (lookupNode_isSome_iff.1 (by rw [hl]; rfl)) hx
    rw [hnone]
    rfl

unseal Rat.add Rat.mul Rat.sub Rat.inv in
theorem claim_C4_witness :
    (9 : ℤ) ∉ nodeIds witG ∧ find_shortest_path witG 1 9 = none ∧
      get_station_by_id witG 9 = none :=
  ⟨by decide,
    (claim_C4_notfound witG 1 9 9).1 (Or.inr (Or.inl (by decide))),
    (claim_C4_notfound witG 1 9 9).2 (by decide)⟩

/-- Claim C5: when a station id is shared by several line groups, the
node stored in the built graph keeps the attributes (name, line tag,
coordinates, order) of the last record processed in the fixed iteration
order, and `get_station_by_id` returns exactly those last-written
attributes. -/
theorem claim_C5_last_write_wins {T : TrigModel} {cat : Catalog} {G : MGraph}
    {rs₁ rs₂ : List (String × RawStation)} {ln : String} {st : RawStation} {x : ℤ}
    (hbuild : build_graph T cat = some G)
    (hsplit : catRecords cat = rs₁ ++ (ln, st) :: rs₂)
    (hid : st.id = x) (hlast : ∀ r ∈ rs₂, r.2.id ≠ x) :
    ∃ la lo, pyFloat st.latitude = some la ∧ pyFloat st.longitude = some lo ∧
      lookupNode G x = some ⟨(lo, la), st.name, ln, st.order⟩ ∧
      get_station_by_id G x = some ⟨x, st.name, la, lo, ln⟩ := by
  have hn := (build_graph_elim hbuild).1
  rw [hsplit] at hn
  rcases nodesOfRecords_lookup_last hn hid hlast with ⟨la, lo, hla, hlo, hlook⟩
  refine ⟨la, lo, hla, hlo, ?_, ?_⟩
  · rw [lookupNode_eq_lookupK]
    exact hlook
  · unfold get_station_by_id
    rw [lookupNode_eq_lookupK, hlook]
    rfl

unseal Rat.add Rat.mul Rat.sub Rat.inv in
theorem claim_C5_witness :
    build_graph witT witCat5 = some witG5 ∧
    ∃ la lo,
      pyFloat (RawStation.mk "S2B" (.num 1) (.num 1) 2 1).latitude = some la ∧
      pyFloat (RawStation.mk "S2B" (.num 1) (.num 1) 2 1).longitude = some lo ∧
      lookupNode witG5 2 = some ⟨(lo, la), "S2B", "B", 1⟩ ∧
      get_station_by_id witG5 2 = some ⟨2, "S2B", la, lo, "B"⟩ :=
  ⟨by decide,
    claim_C5_last_write_wins
      (by decide : build_graph witT witCat5 = some witG5)
      (by decide :
        catRecords witCat5 =
          [("A", ⟨"S1", .num 0, .num 0, 1, 1⟩), ("A", ⟨"S2A", .num 0, .num 1, 2, 2⟩)] ++
            ("B", ⟨"S2B", .num 1, .num 1, 2, 1⟩) :: [("B", ⟨"S3", .num 1, .num 2, 3, 2⟩)])
      rfl (by decide)⟩

unseal Rat.add Rat.mul Rat.sub Rat.inv in
theorem pyRound_zero (n : ℕ) : pyRound 0 n = 0 := by
  unfold pyRound
  rw [zero_mul]
  have h0 : rhe 0 = 0 := by decide
  rw [h0]
  norm_num

/-- Claim C6: for every id present in the graph, `find_shortest_path x x`
returns a successful result with the single-station path `[x]`, an empty
leg list, total distance 0, total time 0 and `num_stations = 1`. -/
theorem claim_C6_self_route {G : MGraph} {x : ℤ} (hx : x ∈ nodeIds G) :
    ∃ d, lookupNode G x = some d ∧
      find_shortest_path G x x =
        some ⟨[x], [⟨x, d.name, d.pos.2, d.pos.1, d.line⟩], [], 0, 0, 1⟩ := by
  obtain ⟨d, hd⟩ := Option.isSome_iff_exists.1 (lookupNode_isSome_iff.2 hx)
  refine ⟨d, hd, ?_⟩
  have hsp : shortestPathNx G x x = some [x] := by
    unfold shortestPathNx
    rw [if_pos ⟨hx, hx⟩]
    obtain ⟨n, hn⟩ : ∃ n, fuelOf G = n + 1 :=
      ⟨(nodeIds G).length + (allVerts G).length, rfl⟩
    rw [hn, simplePathsAux, if_pos rfl]
    rfl
  rw [find_shortest_path_eq hsp]
  have hlg : legsOf G [x] = some ([], 0, 0) := rfl
  have hst : stationsOf G [x] = some [⟨x, d.name, d.pos.2, d.pos.1, d.line⟩] := by
    rw [stationsOf, hd]
    rfl
  rw [routeOf_eq hlg hst, pyRound_zero, pyRound_zero]
  rfl

unseal Rat.add Rat.mul Rat.sub Rat.inv in
theorem claim_C6_witness :
    (1 : ℤ) ∈ nodeIds witG ∧
    ∃ d, lookupNode witG 1 = some d ∧
      find_shortest_path witG 1 1 =
        some ⟨[1], [⟨1, d.name, d.pos.2, d.pos.1, d.line⟩], [], 0, 0, 1⟩ :=
  ⟨by decide, claim_C6_self_route (by decide)⟩

/-- Claim C7: the haversine distance is symmetric and zero on identical
points, for any trigonometric model whose `sin` is odd and whose `sqrt`
and `asin` vanish at 0 (true of the real `math` functions); it is a total
function by construction. -/
theorem claim_C7_haversine_algebra (T : TrigModel)
    (hodd : ∀ y, T.sin (-y) = - T.sin y)
    (hsqrt : T.sqrt 0 = 0) (hasin : T.asin 0 = 0) :
    (∀ lat1 lon1 lat2 lon2 : ℚ,
      haversine_distance T lat1 lon1 lat2 lon2 =
        haversine_distance T lat2 lon2 lat1 lon1) ∧
    (∀ lat lon : ℚ, haversine_distance T lat lon lat lon = 0) :=
  ⟨haversine_symm T hodd, haversine_self T hodd hsqrt hasin⟩

theorem claim_C7_witness :
    (∀ y : ℚ, witT.sin (-y) = - witT.sin y) ∧ witT.sqrt 0 = 0 ∧ witT.asin 0 = 0 ∧
    (∀ lat1 lon1 lat2 lon2 : ℚ,
      haversine_distance witT lat1 lon1 lat2 lon2 =
        haversine_distance witT lat2 lon2 lat1 lon1) ∧
    (∀ lat lon : ℚ, haversine_distance witT lat lon lat lon = 0) :=
  ⟨fun _ => rfl, rfl, rfl,
    (claim_C7_haversine_algebra witT (fun _ => rfl) rfl rfl).1,
    (claim_C7_haversine_algebra witT (fun _ => rfl) rfl rfl).2⟩

/-- Claim C8: `search_stations` is case-insensitive by uppercase
normalization: for every query, searching its uppercase form and its
lowercase form return identical result sequences (same elements in the
same deterministic node-insertion order). -/
theorem claim_C8_search_case_insensitive (G : MGraph) (q : String) :
    search_stations G (pyUpper q) = search_stations G (pyLower q) := by
  simp only [search_stations]
  rw [pyUpper_pyUpper, pyUpper_pyLower]

/-- Claim C9 (amended): graph construction fails (the uncaught
`ValueError` of `float`, modelled as `none`) whenever any station record
has a non-numeric latitude or longitude string; numeric but out-of-range
coordinates are not detected and construction completes. -/
theorem claim_C9_fail_on_malformed {T : TrigModel} {cat : Catalog}
    (h : ∃ ln ss st, (ln, ss) ∈ cat ∧ st ∈ ss ∧
      (st.latitude = RawCoord.malformed ∨ st.longitude = RawCoord.malformed)) :
    build_graph T cat = none :=
  build_graph_of_malformed h

unseal Rat.add Rat.mul Rat.sub Rat.inv in
theorem claim_C9_counterexample :
    (¬ (-90 ≤ (200 : ℚ) ∧ (200 : ℚ) ≤ 90)) ∧
    (∃ ln ss st, (ln, ss) ∈ cexCatRange ∧ st ∈ ss ∧ st.latitude = RawCoord.num 200) ∧
    build_graph witT cexCatRange ≠ none :=
  ⟨by norm_num, ⟨"A", [⟨"S1", .num 200, .num 0, 1, 1⟩], ⟨"S1", .num 200, .num 0, 1, 1⟩,
    by decide, by decide, rfl⟩, by decide⟩

theorem claim_C9_witness : build_graph witT witCatMal = none :=
  claim_C9_fail_on_malformed
    ⟨"A", [⟨"S1", .malformed, .num 0, 1, 1⟩], ⟨"S1", .malformed, .num 0, 1, 1⟩,
      by decide, by decide, Or.inl rfl⟩

/-- Claim C10: every successful result of `find_shortest_path` is
internally consistent: its path starts at the source and ends at the
target, `num_stations` is the path length, the `stations` sequence lists
exactly the path ids in order, and `route_details` has one leg per
consecutive pair with matching `from_id`/`to_id`. -/
theorem claim_C10_route_result_consistent {G : MGraph} {s t : ℤ} {r : RouteResult}
    (h : find_shortest_path G s t = some r) :
    r.path.head? = some s ∧ r.path.getLast? = some t ∧
    r.num_stations = r.path.length ∧
    r.stations.map StationOut.id = r.path ∧
    r.route_details.length = r.path.length - 1 ∧
    r.route_details.map Leg.from_id = r.path.dropLast ∧
    r.route_details.map Leg.to_id = r.path.tail := by
  rcases find_shortest_path_elim h with ⟨p, legs, td, tt, sts, hsp, hlg, hst, hr⟩
  subst hr
  have hpath := shortestPathNx_isPath hsp
  have hspec := legsOf_spec hlg
  refine ⟨hpath.1, hpath.2.1, rfl, stationsOf_spec hst, ?_, hspec.1, hspec.2.1⟩
  have hlen := congrArg List.length hspec.1
  rw [List.length_map, List.length_dropLast] at hlen
  exact hlen

unseal Rat.add Rat.mul Rat.sub Rat.inv in
theorem claim_C10_witness :
    find_shortest_path witG 1 2 = some witR ∧
    (witR.path.head? = some 1 ∧ witR.path.getLast? = some 2 ∧
     witR.num_stations = witR.path.length ∧
     witR.stations.map StationOut.id = witR.path ∧
     witR.route_details.length = witR.path.length - 1 ∧
     witR.route_details.map Leg.from_id = witR.path.dropLast ∧
     witR.route_details.map Leg.to_id = witR.path.tail) :=
  ⟨by decide, claim_C10_route_result_consistent
    (by decide : find_shortest_path witG 1 2 = some witR)⟩

end Metro
